import Mathlib

/-!
Verification of `scripts/generate_formula.py`: a shallow embedding of its two
functions, `parse_requirements` and `generate_formula`, together with the
`__main__` entry block, and theorems about them.

Lines of text are modelled as `List Char` (Python strings are sequences of
code points); the lockfile is a list of lines.  Python's `dict` (insertion
ordered, unique keys, assignment updates in place) is modelled as an
association list with an in-place-update insert.
-/

/-- The character class of the regexes `^[a-zA-Z0-9_-]` and
`^([a-zA-Z0-9_-]+)==([^ \\]+)` (source lines 32 and 39). -/
def isNameChar (c : Char) : Bool := c.isAlphanum || c = '_' || c = '-'

/-- The character class `[a-f0-9]` of the hash regex (source line 47). -/
def isHexChar (c : Char) : Bool := ('a' ≤ c && c ≤ 'f') || c.isDigit

/-- Python `str.rstrip()` (source line 17): remove trailing whitespace. -/
def rstrip (l : List Char) : List Char := (l.reverse.dropWhile Char.isWhitespace).reverse

/-- Python `str.strip()` (source line 25): remove leading and trailing whitespace. -/
def pyStrip (l : List Char) : List Char := rstrip (l.dropWhile Char.isWhitespace)

/-- Python `line[:-2]` (source line 25): drop the final two characters. -/
def dropLast2 (l : List Char) : List Char := l.take (l.length - 2)

/-- Python `line.endswith("\\")` (source line 24). -/
def endsBackslash (l : List Char) : Bool := l.getLast? == some '\\'

/-- The per-line normalisation of `parse_requirements` (source lines 17-29):
`rstrip`, skip blank and comment lines, strip a trailing line-continuation
marker via `line[:-2].strip()`, and skip the literal `-e .` line.
Returns `none` when the line is skipped outright. -/
def processLine (line : List Char) : Option (List Char) :=
  let l := rstrip line
  if l.isEmpty || l.head? == some '#' then none
  else
    let l := if endsBackslash l then pyStrip (dropLast2 l) else l
    if l = "-e .".data then none else some l

/-- `re.match(r"^[a-zA-Z0-9_-]", line)` (source line 32): the line is treated
as a package declaration when its first character is in the name class. -/
def isPkgLine (l : List Char) : Bool :=
  match l.head? with
  | some c => isNameChar c
  | none => false

/-- `re.match(r"^([a-zA-Z0-9_-]+)==([^ \\]+)", line)` (source line 39):
a greedy run of name characters, the literal `==`, then a nonempty run of
characters that are neither a space nor a backslash. -/
def pkgMatch (l : List Char) : Option (List Char × List Char) :=
  let name := l.takeWhile isNameChar
  if name.isEmpty then none
  else
    match l.dropWhile isNameChar with
    | '=' :: '=' :: r =>
      let ver := r.takeWhile fun c => !(c = ' ' || c = '\\')
      if ver.isEmpty then none else some (name, ver)
    | _ => none

/-- Python `sub in line` substring containment (source line 46). -/
def containsSub (sub : List Char) : List Char → Bool
  | [] => sub.isEmpty
  | c :: rest => sub.isPrefixOf (c :: rest) || containsSub sub rest

/-- The literal prefix of the hash regex `--hash=sha256:([a-f0-9]+)`. -/
def hashPrefix : List Char := "--hash=sha256:".data

/-- `re.search(r"--hash=sha256:([a-f0-9]+)", line)` (source line 47): the
leftmost occurrence of the literal followed by at least one hex character;
the captured group is the maximal hex run after the literal. -/
def hashSearch : List Char → Option (List Char)
  | [] => none
  | c :: rest =>
    if hashPrefix.isPrefixOf (c :: rest) then
      let digest := ((c :: rest).drop hashPrefix.length).takeWhile isHexChar
      if digest.isEmpty then hashSearch rest else some digest
    else hashSearch rest

/-- Python `dict` assignment `d[k] = v`: update in place when the key exists,
append otherwise. -/
def dictInsert (k : String) (v : List String) : List (String × List String) → List (String × List String)
  | [] => [(k, v)]
  | (k', v') :: rest => if k' = k then (k, v) :: rest else (k', v') :: dictInsert k v rest

/-- The loop state of `parse_requirements`: the `packages` dict, the
`current_package` variable, and the `current_hashes` accumulator. -/
structure ParseState where
  packages : List (String × List String)
  current : Option String
  hashes : List String
deriving DecidableEq, Repr

/-- One iteration of the `for line in f` loop of `parse_requirements`
(source lines 16-49).  On a package-start line the previous package is
flushed and the accumulator reset only when `current_package` is set;
the full `name==version` match then updates `current_package` (the version
and PyPI url built on lines 42-44 are discarded).  Otherwise a line holding
`--hash=` has its sha256 digest appended to the accumulator. -/
def parseStep (st : ParseState) (line : List Char) : ParseState :=
  match processLine line with
  | none => st
  | some l =>
    if isPkgLine l then
      let packages := match st.current with
        | some p => dictInsert p st.hashes st.packages
        | none => st.packages
      let hashes := match st.current with
        | some _ => ([] : List String)
        | none => st.hashes
      match pkgMatch l with
      | some (name, _ver) => ⟨packages, some (String.mk name), hashes⟩
      | none => ⟨packages, st.current, hashes⟩
    else if containsSub "--hash=".data l then
      match hashSearch l with
      | some d => ⟨st.packages, st.current, st.hashes ++ [String.mk d]⟩
      | none => st
    else st

/-- The final flush of `parse_requirements` (source lines 52-53). -/
def parseFinish (st : ParseState) : List (String × List String) :=
  match st.current with
  | some p => dictInsert p st.hashes st.packages
  | none => st.packages

/-- `parse_requirements` on a list of lines already split out of the file. -/
def parseLines (lines : List (List Char)) : List (String × List String) :=
  parseFinish (lines.foldl parseStep ⟨[], none, []⟩)

/-- `parse_requirements` (source lines 9-55): fold the loop body over the
file's lines and flush the last package. -/
def parse_requirements (lines : List String) : List (String × List String) :=
  parseLines (lines.map String.data)

/-- `pkg_name.lower().replace("-", "_")` (source line 78). -/
def normalizeName (s : String) : String :=
  String.mk ((s.data.map Char.toLower).map fun c => if c = '-' then '_' else c)

/-- `pkg_name.replace('-', '_')` as used in the resource url (source line 91). -/
def underscoreName (s : String) : String :=
  String.mk (s.data.map fun c => if c = '-' then '_' else c)

/-- Python string `<=`: lexicographic comparison of code-point sequences. -/
def charListLe : List Char → List Char → Bool
  | [], _ => true
  | _ :: _, [] => false
  | a :: as, b :: bs => if a < b then true else if b < a then false else charListLe as bs

/-- Python string `<`: strict lexicographic comparison of code-point sequences. -/
def charListLt : List Char → List Char → Bool
  | [], [] => false
  | [], _ :: _ => true
  | _ :: _, [] => false
  | a :: as, b :: bs => if a < b then true else if b < a then false else charListLt as bs

/-- The order used by `sorted(packages.items())` (source line 76), compared on
the package-name component.  The dict's keys are unique, so comparing the
first components alone agrees with Python's tuple comparison. -/
def pkgLe (a b : String × List String) : Prop := charListLe a.1.data b.1.data = true

instance : DecidableRel pkgLe := fun a b => instDecidableEqBool _ _

/-- `sorted(packages.items())` (source line 76). -/
def sortedPackages (packages : List (String × List String)) : List (String × List String) :=
  List.insertionSort pkgLe packages

/-- The records that produce a resource block: the sorted items minus those
whose normalised name is `claudectl` (source lines 76-82). -/
def resourceEntries (packages : List (String × List String)) : List (String × List String) :=
  (sortedPackages packages).filter fun p => !(normalizeName p.1 == "claudectl")

/-- The checksum of a resource block: the first hash when the tuple is
nonempty, the placeholder otherwise (source lines 84-87). -/
def resourceSha (hashes : List String) : String :=
  match hashes with
  | [] => "PLACEHOLDER"
  | h :: _ => h

/-- One resource block (source lines 89-94). -/
def renderResource (version : String) (p : String × List String) : String :=
  "\n  resource \"" ++ p.1 ++ "\" do\n    url \"https://files.pythonhosted.org/packages/" ++
    underscoreName p.1 ++ "-" ++ version ++ ".tar.gz\"\n    sha256 \"" ++
    resourceSha p.2 ++ "\"\n  end\n"

/-- Python `x or d` for an optional string `x`: `d` when `x` is `None` or empty. -/
def pyOr (o : Option String) (d : String) : String :=
  match o with
  | none => d
  | some s => if s = "" then d else s

/-- The default release url (source line 68). -/
def defaultUrl (version : String) : String :=
  "https://github.com/carelesslisper/claudectl/releases/download/v" ++ version ++
    "/claudectl-" ++ version ++ ".tar.gz"

/-- The header of the formula (source lines 63-73). -/
def formulaHeader (version : String) (url sha256 : Option String) : String :=
  "class Claudectl < Formula\n  include Language::Python::Virtualenv\n\n  desc \"CLI tool for managing Claude Code configurations and workspaces\"\n  homepage \"https://github.com/carelesslisper/claudectl\"\n  url \"" ++
    pyOr url (defaultUrl version) ++ "\"\n  sha256 \"" ++
    pyOr sha256 "PLACEHOLDER_UPDATE_AFTER_FIRST_RELEASE" ++
    "\"\n  license \"MIT\"\n\n  depends_on \"python@3.13\"\n"

/-- The fixed install and test stanzas (source lines 96-105). -/
def formulaFooter : String :=
  "\n  def install\n    virtualenv_install_with_resources\n  end\n\n  test do\n    system \"claudectl\", \"--version\"\n  end\nend\n"

/-- `generate_formula` (source lines 58-107): header, one block per
resource entry in sorted order, footer. -/
def generate_formula (version : String) (packages : List (String × List String))
    (url sha256 : Option String) : String :=
  formulaHeader version url sha256 ++
    String.join ((resourceEntries packages).map (renderResource version)) ++
    formulaFooter

/-- The usage message printed when the lockfile argument is missing
(source line 112), with the newline added by `print`. -/
def usageMessage : String :=
  "Usage: generate_formula.py <requirements.txt> [version] [url] [sha256]\n"

/-- The `__main__` block (source lines 110-126).  `argv` is the full
`sys.argv` including the program name; `readFile` maps a path to the file's
lines when the file exists.  The result is the exit code paired with what is
printed to standard output. -/
def mainProgram (argv : List String) (readFile : String → Option (List String)) :
    Nat × String :=
  if argv.length < 2 then (1, usageMessage)
  else
    let reqFile := argv.getD 1 ""
    match readFile reqFile with
    | none => (1, "Error: " ++ reqFile ++ " not found\n")
    | some lines =>
      let version := argv.getD 2 "0.1.0"
      let url := argv.get? 3
      let sha256 := argv.get? 4
      (0, generate_formula version (parse_requirements lines) url sha256 ++ "\n")

/-- The flush of the `packages` dict performed at the start of a
package-declaration line (source lines 34-36). -/
def flushP (st : ParseState) : List (String × List String) :=
  match st.current with
  | some p => dictInsert p st.hashes st.packages
  | none => st.packages

/-- The accumulator after the flush at the start of a package-declaration
line: reset only when a previous package was flushed (source lines 34-36). -/
def flushH (st : ParseState) : List String :=
  match st.current with
  | some _ => ([] : List String)
  | none => st.hashes

/-- One entry of a lockfile: a `name==version` declaration followed by its
hash lines. -/
structure LockEntry where
  name : String
  version : String
  hashes : List String

/-- The declaration line `name==version` of an entry. -/
def pkgDeclLine (e : LockEntry) : String := e.name ++ "==" ++ e.version

/-- An indented hash line `    --hash=sha256:<hex>` with no trailing
continuation marker. -/
def hashDeclLine (h : String) : String := "    --hash=sha256:" ++ h

/-- The lines of one lockfile entry. -/
def entryLines (e : LockEntry) : List String := pkgDeclLine e :: e.hashes.map hashDeclLine

/-- A lockfile: the concatenated lines of its entries. -/
def lockfile (es : List LockEntry) : List String := (es.map entryLines).join

/-- A well-formed package name: nonempty and made of name characters. -/
def ValidName (s : String) : Prop := s.data ≠ [] ∧ ∀ c ∈ s.data, isNameChar c = true

/-- A well-formed pinned version: nonempty, no whitespace, no backslash. -/
def ValidVersion (s : String) : Prop :=
  s.data ≠ [] ∧ ∀ c ∈ s.data, c.isWhitespace = false ∧ c ≠ '\\'

/-- A well-formed sha256 digest string: nonempty and made of `[a-f0-9]`. -/
def ValidHash (s : String) : Prop := s.data ≠ [] ∧ ∀ c ∈ s.data, isHexChar c = true

/-- A well-formed lockfile entry. -/
def ValidEntry (e : LockEntry) : Prop :=
  ValidName e.name ∧ ValidVersion e.version ∧ ∀ h ∈ e.hashes, ValidHash h

instance : DecidablePred ValidName := fun s => And.decidable
instance : DecidablePred ValidVersion := fun s => And.decidable
instance : DecidablePred ValidHash := fun s => And.decidable
instance : DecidablePred ValidEntry := fun e => And.decidable

/-! ### Lemmas on the lexicographic order -/

theorem charListLe_total (a b : List Char) : charListLe a b = true ∨ charListLe b a = true := by
  induction a generalizing b with
  | nil => left; rfl
  | cons x xs ih =>
    cases b with
    | nil => right; rfl
    | cons y ys =>
      rcases lt_trichotomy x y with h | h | h
      · left; simp [charListLe, h]
      · subst h
        rcases ih ys with h' | h'
        · left; simp [charListLe, h']
        · right; simp [charListLe, h']
      · right; simp [charListLe, h]

theorem charListLe_trans (a b c : List Char) (h1 : charListLe a b = true)
    (h2 : charListLe b c = true) : charListLe a c = true := by
  induction a generalizing b c with
  | nil => rfl
  | cons x xs ih =>
    cases b with
    | nil => simp [charListLe] at h1
    | cons y ys =>
      cases c with
      | nil => simp [charListLe] at h2
      | cons z zs =>
        rcases lt_trichotomy x y with hxy | hxy | hxy
        · rcases lt_trichotomy y z with hyz | hyz | hyz
          · simp [charListLe, lt_trans hxy hyz]
          · subst hyz; simp [charListLe, hxy]
          · simp [charListLe, hyz, not_lt.2 (le_of_lt hyz)] at h2
        · subst hxy
          rcases lt_trichotomy x z with hyz | hyz | hyz
          · simp [charListLe, hyz]
          · subst hyz
            have e1 : charListLe xs ys = true := by
              simpa [charListLe] using h1
            have e2 : charListLe ys zs = true := by
              simpa [charListLe] using h2
            simp [charListLe, ih ys zs e1 e2]
          · simp [charListLe, hyz, not_lt.2 (le_of_lt hyz)] at h2
        · simp [charListLe, hxy, not_lt.2 (le_of_lt hxy)] at h1

theorem charListLt_of_le_of_ne (a b : List Char) (h : charListLe a b = true)
    (hne : a ≠ b) : charListLt a b = true := by
  induction a generalizing b with
  | nil =>
    cases b with
    | nil => exact absurd rfl hne
    | cons y ys => rfl
  | cons x xs ih =>
    cases b with
    | nil => simp [charListLe] at h
    | cons y ys =>
      rcases lt_trichotomy x y with hxy | hxy | hxy
      · simp [charListLt, hxy]
      · subst hxy
        have h' : charListLe xs ys = true := by simpa [charListLe] using h
        have hne' : xs ≠ ys := by
          intro he; exact hne (by rw [he])
        simp [charListLt, ih ys h' hne']
      · simp [charListLe, hxy, not_lt.2 (le_of_lt hxy)] at h

instance : IsTotal (String × List String) pkgLe :=
  ⟨fun a b => charListLe_total a.1.data b.1.data⟩

instance : IsTrans (String × List String) pkgLe :=
  ⟨fun a b c => charListLe_trans a.1.data b.1.data c.1.data⟩

theorem string_data_inj {s t : String} (h : s.data = t.data) : s = t := by
  cases s; cases t; exact congrArg String.mk h

/-! ### Renderer theorems -/

/-- C4: for every packages mapping (with the unique keys a Python dict
guarantees), the resource blocks in the string returned by `generate_formula`
appear in strictly ascending alphabetical (code-point lexicographic) order of
package name, regardless of the insertion order of the mapping. -/
theorem resource_blocks_sorted (version : String) (packages : List (String × List String))
    (url sha256 : Option String) (nd : (packages.map Prod.fst).Nodup) :
    List.Pairwise (fun a b : String × List String => charListLt a.1.data b.1.data = true)
      (resourceEntries packages) ∧
    generate_formula version packages url sha256 =
      formulaHeader version url sha256 ++
        String.join ((resourceEntries packages).map (renderResource version)) ++
        formulaFooter := by
  refine ⟨?_, rfl⟩
  have hs : List.Sorted pkgLe (sortedPackages packages) :=
    List.sorted_insertionSort pkgLe packages
  have hperm : (sortedPackages packages).Perm packages :=
    List.perm_insertionSort pkgLe packages
  have hnd : ((sortedPackages packages).map Prod.fst).Nodup :=
    ((hperm.map Prod.fst).symm).nodup nd
  have hne : List.Pairwise (fun a b : String × List String => a.1 ≠ b.1)
      (sortedPackages packages) := by
    rw [List.Nodup, List.pairwise_map] at hnd
    exact hnd
  have hlt : List.Pairwise (fun a b : String × List String => charListLt a.1.data b.1.data = true)
      (sortedPackages packages) := by
    refine (hs.and hne).imp ?_
    rintro a b ⟨h1, h2⟩
    exact charListLt_of_le_of_ne _ _ h1 fun he => h2 (string_data_inj he)
  exact hlt.filter _

/-- Witness for `resource_blocks_sorted` at a concrete two-package mapping
given in reverse alphabetical order. -/
theorem resource_blocks_sorted_witness :
    (([("b", ["x"]), ("a", [])] : List (String × List String)).map Prod.fst).Nodup ∧
    List.Pairwise (fun a b : String × List String => charListLt a.1.data b.1.data = true)
      (resourceEntries [("b", ["x"]), ("a", [])]) :=
  ⟨by decide, (resource_blocks_sorted "1.0" [("b", ["x"]), ("a", [])] none none (by decide)).1⟩

/-- C5: a package record whose name is exactly `claudectl` never produces a
resource block: no entry rendered by `generate_formula` carries that name. -/
theorem claudectl_never_rendered (version : String) (packages : List (String × List String))
    (url sha256 : Option String) :
    "claudectl" ∉ (resourceEntries packages).map Prod.fst ∧
    generate_formula version packages url sha256 =
      formulaHeader version url sha256 ++
        String.join ((resourceEntries packages).map (renderResource version)) ++
        formulaFooter := by
  refine ⟨?_, rfl⟩
  intro hmem
  rcases List.mem_map.1 hmem with ⟨p, hp, hfst⟩
  have hcond := (List.mem_filter.1 hp).2
  rw [hfst] at hcond
  simp [normalizeName] at hcond

/-- Witness for `claudectl_never_rendered`: the tool's own record is dropped
from a concrete mapping. -/
theorem claudectl_never_rendered_witness :
    "claudectl" ∉ (resourceEntries [("claudectl", ["x"]), ("b", [])]).map Prod.fst :=
  (claudectl_never_rendered "1.0" [("claudectl", ["x"]), ("b", [])] none none).1

/-- C6: the checksum field of a rendered resource block is the first element
of the record's hash tuple when that tuple is nonempty, and the fixed
placeholder token (a nonempty string) when the tuple is empty. -/
theorem resource_checksum_first_or_placeholder (version name : String) (hs : List String) :
    renderResource version (name, hs) =
      "\n  resource \"" ++ name ++ "\" do\n    url \"https://files.pythonhosted.org/packages/" ++
        underscoreName name ++ "-" ++ version ++ ".tar.gz\"\n    sha256 \"" ++
        resourceSha hs ++ "\"\n  end\n" ∧
    (hs ≠ [] → resourceSha hs = hs.headI) ∧
    (hs = [] → resourceSha hs = "PLACEHOLDER") ∧
    ("PLACEHOLDER" : String) ≠ "" := by
  refine ⟨rfl, ?_, ?_, by decide⟩
  · intro h
    cases hs with
    | nil => exact absurd rfl h
    | cons a t => rfl
  · intro h
    subst h
    rfl

/-- Witness for `resource_checksum_first_or_placeholder` on a record with one
hash and on a record with none. -/
theorem resource_checksum_first_or_placeholder_witness :
    ((["d1", "d2"] : List String) ≠ [] ∧ resourceSha ["d1", "d2"] = (["d1", "d2"] : List String).headI) ∧
    (([] : List String) = [] ∧ resourceSha [] = "PLACEHOLDER") :=
  ⟨⟨by decide, (resource_checksum_first_or_placeholder "1.0" "flask" ["d1", "d2"]).2.1 (by decide)⟩,
   ⟨rfl, (resource_checksum_first_or_placeholder "1.0" "flask" []).2.2.1 rfl⟩⟩

/-- C9: `generate_formula` is deterministic: equal mappings, version and
overrides give byte-identical output (the embedding is a pure function, so
the call has no effect beyond its result). -/
theorem generate_formula_deterministic (v₁ v₂ : String)
    (p₁ p₂ : List (String × List String)) (u₁ u₂ s₁ s₂ : Option String)
    (hv : v₁ = v₂) (hp : p₁ = p₂) (hu : u₁ = u₂) (hs : s₁ = s₂) :
    generate_formula v₁ p₁ u₁ s₁ = generate_formula v₂ p₂ u₂ s₂ := by
  subst hv hp hu hs
  rfl

/-- Witness for `generate_formula_deterministic` at a concrete call. -/
theorem generate_formula_deterministic_witness :
    generate_formula "1.0" [("flask", ["d"])] none none =
      generate_formula "1.0" [("flask", ["d"])] none none :=
  generate_formula_deterministic "1.0" "1.0" [("flask", ["d"])] [("flask", ["d"])]
    none none none none rfl rfl rfl rfl

set_option maxRecDepth 4000 in
/-- C10 counterexample: the record named `Claude-Ctl` normalises to
`claude_ctl`, not `claudectl`, so it is not excluded: it yields a resource
block and changes the output. -/
theorem claude_ctl_normalization_counterexample :
    (resourceEntries [("Claude-Ctl", [])]).map Prod.fst = ["Claude-Ctl"] ∧
    normalizeName "Claude-Ctl" = "claude_ctl" ∧
    generate_formula "1.0" [("Claude-Ctl", [])] none none ≠
      generate_formula "1.0" [] none none := by
  refine ⟨by decide, by decide, by decide⟩

/-- C10 amended: `generate_formula` excludes exactly the records whose name
lowercased with hyphens replaced by underscores equals `claudectl` (so
`CLAUDECTL` is excluded, while `Claude-Ctl` normalises to `claude_ctl` and is
kept); with the unique keys of a Python dict, every kept record appears
exactly once among the resource entries. -/
theorem exclusion_exactly_normalized_claudectl (packages : List (String × List String))
    (p : String × List String) :
    (p ∈ resourceEntries packages ↔ p ∈ packages ∧ normalizeName p.1 ≠ "claudectl") ∧
    (packages.Nodup → (resourceEntries packages).Nodup) ∧
    normalizeName "CLAUDECTL" = "claudectl" ∧
    normalizeName "Claude-Ctl" = "claude_ctl" := by
  refine ⟨?_, ?_, by decide, by decide⟩
  · rw [resourceEntries, List.mem_filter]
    have hmem : p ∈ sortedPackages packages ↔ p ∈ packages :=
      (List.perm_insertionSort pkgLe packages).mem_iff
    constructor
    · rintro ⟨h1, h2⟩
      refine ⟨hmem.1 h1, ?_⟩
      simpa using h2
    · rintro ⟨h1, h2⟩
      refine ⟨hmem.2 h1, ?_⟩
      simpa using h2
  · intro h
    exact ((List.perm_insertionSort pkgLe packages).symm.nodup h).filter _

/-- Witness for `exclusion_exactly_normalized_claudectl` on a concrete
mapping holding an excluded and a kept record. -/
theorem exclusion_exactly_normalized_claudectl_witness :
    (([("CLAUDECTL", []), ("a", ["d"])] : List (String × List String)).Nodup ∧
      (resourceEntries [("CLAUDECTL", []), ("a", ["d"])]).Nodup) ∧
    (("a", ["d"]) ∈ resourceEntries [("CLAUDECTL", []), ("a", ["d"])] ↔
      ("a", ["d"]) ∈ ([("CLAUDECTL", []), ("a", ["d"])] : List (String × List String)) ∧
        normalizeName "a" ≠ "claudectl") :=
  ⟨⟨by decide,
    (exclusion_exactly_normalized_claudectl [("CLAUDECTL", []), ("a", ["d"])] ("a", ["d"])).2.1 (by decide)⟩,
   (exclusion_exactly_normalized_claudectl [("CLAUDECTL", []), ("a", ["d"])] ("a", ["d"])).1⟩

/-! ### Entry-point theorems -/

/-- C8: with fewer than two arguments the program exits 1 printing only the
usage message; with a path naming no file it exits 1 printing only the
not-found message; on success it exits 0 printing the rendered formula. -/
theorem main_cli_behaviour (argv : List String) (fs : String → Option (List String)) :
    (argv.length < 2 → mainProgram argv fs = (1, usageMessage)) ∧
    (∀ prog path rest, argv = prog :: path :: rest → fs path = none →
      mainProgram argv fs = (1, "Error: " ++ path ++ " not found\n")) ∧
    (∀ prog path rest lines, argv = prog :: path :: rest → fs path = some lines →
      mainProgram argv fs =
        (0, generate_formula (argv.getD 2 "0.1.0") (parse_requirements lines)
              (argv.get? 3) (argv.get? 4) ++ "\n")) := by
  refine ⟨?_, ?_, ?_⟩
  · intro h
    simp [mainProgram, h]
  · rintro prog path rest rfl hfs
    simp [mainProgram, List.getD, hfs]
  · rintro prog path rest lines rfl hfs
    simp [mainProgram, List.getD, hfs]

/-- Witness for `main_cli_behaviour`: the three behaviours at concrete
invocations. -/
theorem main_cli_behaviour_witness :
    mainProgram ["generate_formula.py"] (fun _ => none) = (1, usageMessage) ∧
    mainProgram ["generate_formula.py", "nope.txt"] (fun _ => none) =
      (1, "Error: " ++ "nope.txt" ++ " not found\n") ∧
    mainProgram ["generate_formula.py", "req.txt"]
        (fun s => if s = "req.txt" then some ["flask==1.0"] else none) =
      (0, generate_formula ((["generate_formula.py", "req.txt"] : List String).getD 2 "0.1.0")
            (parse_requirements ["flask==1.0"])
            ((["generate_formula.py", "req.txt"] : List String).get? 3)
            ((["generate_formula.py", "req.txt"] : List String).get? 4) ++ "\n") :=
  ⟨(main_cli_behaviour ["generate_formula.py"] (fun _ => none)).1 (by decide),
   (main_cli_behaviour ["generate_formula.py", "nope.txt"] (fun _ => none)).2.1
     "generate_formula.py" "nope.txt" [] rfl rfl,
   (main_cli_behaviour ["generate_formula.py", "req.txt"]
       (fun s => if s = "req.txt" then some ["flask==1.0"] else none)).2.2
     "generate_formula.py" "req.txt" [] ["flask==1.0"] rfl (by decide)⟩

/-! ### Parser counterexamples and failing-input evaluations -/

/-- C1 counterexample: a hash line appearing before any package declaration
is not dropped; it ends up in the first declared package's tuple. -/
theorem hash_before_first_package_counterexample :
    parse_requirements ["    --hash=sha256:aa", "flask==1.0"] = [("flask", ["aa"])] ∧
    parse_requirements ["    --hash=sha256:aa", "flask==1.0"] ≠ [("flask", [])] := by
  refine ⟨by decide, by decide⟩

/-- C2 counterexample: a malformed package line (`zzz!`) flushes the hashes
accumulated so far, so the result differs from parsing the same input with
that line removed. -/
theorem malformed_line_changes_result_counterexample :
    parse_requirements ["flask==1.0", "    --hash=sha256:aa", "zzz!", "    --hash=sha256:bb"] =
      [("flask", ["bb"])] ∧
    parse_requirements ["flask==1.0", "    --hash=sha256:aa", "    --hash=sha256:bb"] =
      [("flask", ["aa", "bb"])] ∧
    parse_requirements ["flask==1.0", "    --hash=sha256:aa", "zzz!", "    --hash=sha256:bb"] ≠
      parse_requirements ["flask==1.0", "    --hash=sha256:aa", "    --hash=sha256:bb"] := by
  refine ⟨by decide, by decide, by decide⟩

/-- C3 failing input: in the standard pinned-requirements format every hash
line but the last ends with a line-continuation marker; `line[:-2].strip()`
removes that line's leading indentation, so it is reclassified as a
(malformed) package line and its digest is lost. -/
theorem continuation_hash_line_lost_eval :
    parse_requirements
        ["flask==2.0.1 \\", "    --hash=sha256:aaa \\", "    --hash=sha256:bbb", "click==8.0.0"] =
      [("flask", ["bbb"]), ("click", [])] ∧
    parse_requirements
        ["flask==2.0.1 \\", "    --hash=sha256:aaa \\", "    --hash=sha256:bbb", "click==8.0.0"] ≠
      [("flask", ["aaa", "bbb"]), ("click", [])] := by
  refine ⟨by decide, by decide⟩

/-- C7 failing input: on a line ending with the continuation marker the code
runs `line[:-2].strip()`, which also removes the leading indentation (turning
a hash line into a package-classified line), and when no whitespace precedes
the marker it also swallows the character before it. -/
theorem continuation_trim_eval :
    processLine "    --hash=sha256:aa \\".data = some "--hash=sha256:aa".data ∧
    processLine "    --hash=sha256:aa \\".data ≠ some "    --hash=sha256:aa".data ∧
    isPkgLine "--hash=sha256:aa".data = true ∧
    processLine "a==1\\".data = some "a==".data := by
  refine ⟨by decide, by decide, by decide, by decide⟩

/-! ### Line-level lemmas for well-formed lockfile lines -/

theorem isHexChar_not_ws {c : Char} (h : isHexChar c = true) : c.isWhitespace = false := by
  cases hw : c.isWhitespace
  · rfl
  · exfalso
    have hcases : ((c = ' ' ∨ c = '\t') ∨ c = '\r') ∨ c = '\n' := by
      simpa [Char.isWhitespace] using hw
    rcases hcases with ((rfl | rfl) | rfl) | rfl <;> exact absurd h (by decide)

theorem isHexChar_ne_backslash {c : Char} (h : isHexChar c = true) : c ≠ '\\' := by
  rintro rfl
  exact absurd h (by decide)

theorem isNameChar_ne_hash {c : Char} (h : isNameChar c = true) : c ≠ '#' := by
  rintro rfl
  exact absurd h (by decide)

theorem isNameChar_ne_space {c : Char} (h : isNameChar c = true) : c ≠ ' ' := by
  rintro rfl
  exact absurd h (by decide)

theorem not_ws_ne_space {c : Char} (h : c.isWhitespace = false) : c ≠ ' ' := by
  rintro rfl
  exact absurd h (by decide)

theorem isPrefixOf_append_self (l r : List Char) : l.isPrefixOf (l ++ r) = true := by
  rw [List.isPrefixOf_iff_prefix]
  exact List.prefix_append l r

theorem containsSub_cons (sub : List Char) (c : Char) (rest : List Char)
    (h : containsSub sub rest = true) : containsSub sub (c :: rest) = true := by
  simp [containsSub, h]

theorem containsSub_self_append (sub post : List Char) (h : sub ≠ []) :
    containsSub sub (sub ++ post) = true := by
  cases sub with
  | nil => exact absurd rfl h
  | cons c t =>
    show containsSub (c :: t) ((c :: t) ++ post) = true
    rw [show ((c :: t) ++ post : List Char) = c :: (t ++ post) from rfl]
    simp only [containsSub]
    rw [show (c :: (t ++ post) : List Char) = (c :: t) ++ post from rfl,
      isPrefixOf_append_self]
    rfl

theorem rstrip_of_all_not_ws (pre l : List Char) (hne : l ≠ [])
    (hl : ∀ c ∈ l, c.isWhitespace = false) : rstrip (pre ++ l) = pre ++ l := by
  obtain ⟨c, t, hct⟩ : ∃ c t, l.reverse = c :: t := by
    cases hr : l.reverse with
    | nil => exact absurd (List.reverse_eq_nil_iff.1 hr) hne
    | cons c t => exact ⟨c, t, rfl⟩
  have hc : c.isWhitespace = false := by
    refine hl c (List.mem_reverse.1 ?_)
    rw [hct]
    exact List.mem_cons_self c t
  unfold rstrip
  rw [List.reverse_append, hct, List.cons_append, List.dropWhile_cons, hc]
  simp only [Bool.false_eq_true, if_false]
  rw [← List.cons_append, ← hct, ← List.reverse_append, List.reverse_reverse]

theorem getLast?_append_right (a b : List Char) (hb : b ≠ []) :
    (a ++ b).getLast? = b.getLast? := by
  rw [List.getLast?_append, List.getLast?_eq_getLast b hb]
  rfl

theorem takeWhile_append_all {p : Char → Bool} (a b : List Char) (h : ∀ c ∈ a, p c = true) :
    List.takeWhile p (a ++ b) = a ++ List.takeWhile p b := by
  induction a with
  | nil => rfl
  | cons c t ih =>
    have hc : p c = true := h c (List.mem_cons_self c t)
    rw [List.cons_append, List.takeWhile_cons, hc]
    simp only [if_true]
    rw [ih fun x hx => h x (List.mem_cons_of_mem c hx), List.cons_append]

theorem dropWhile_append_all {p : Char → Bool} (a b : List Char) (h : ∀ c ∈ a, p c = true) :
    List.dropWhile p (a ++ b) = List.dropWhile p b := by
  induction a with
  | nil => rfl
  | cons c t ih =>
    have hc : p c = true := h c (List.mem_cons_self c t)
    rw [List.cons_append, List.dropWhile_cons, hc]
    simp only [if_true]
    exact ih fun x hx => h x (List.mem_cons_of_mem c hx)

theorem pkgDeclLine_data (e : LockEntry) :
    (pkgDeclLine e).data = e.name.data ++ ('=' :: '=' :: e.version.data) := by
  show (e.name ++ "==" ++ e.version).data = _
  rw [String.data_append, String.data_append]
  rw [List.append_assoc]
  rfl

theorem processLine_pkgDecl (e : LockEntry) (he : ValidEntry e) :
    processLine (pkgDeclLine e).data = some (pkgDeclLine e).data := by
  obtain ⟨⟨hn1, hn2⟩, ⟨hv1, hv2⟩, _⟩ := he
  obtain ⟨c0, nt, hct⟩ : ∃ c0 nt, e.name.data = c0 :: nt := by
    cases hn : e.name.data with
    | nil => exact absurd hn hn1
    | cons c0 nt => exact ⟨c0, nt, rfl⟩
  have hc0 : isNameChar c0 = true := by
    refine hn2 c0 ?_
    rw [hct]
    exact List.mem_cons_self c0 nt
  have hshape : (pkgDeclLine e).data =
      (e.name.data ++ ['=', '=']) ++ e.version.data := by
    rw [pkgDeclLine_data, List.append_assoc]
    rfl
  have hstrip : rstrip (pkgDeclLine e).data = (pkgDeclLine e).data := by
    rw [hshape]
    exact rstrip_of_all_not_ws _ _ hv1 fun c hc => (hv2 c hc).1
  have hhead : (pkgDeclLine e).data.head? = some c0 := by
    rw [pkgDeclLine_data, hct]
    rfl
  have hempty : (pkgDeclLine e).data.isEmpty = false := by
    rw [pkgDeclLine_data, hct]
    rfl
  have hlast : endsBackslash (pkgDeclLine e).data = false := by
    obtain ⟨z, hz, hzmem⟩ : ∃ z, e.version.data.getLast? = some z ∧ z ∈ e.version.data :=
      ⟨e.version.data.getLast hv1, List.getLast?_eq_getLast _ hv1, List.getLast_mem hv1⟩
    have hzb : z ≠ '\\' := (hv2 z hzmem).2
    rw [endsBackslash, hshape, getLast?_append_right _ _ hv1, hz]
    simpa using hzb
  have hnotE : (pkgDeclLine e).data ≠ "-e .".data := by
    intro hEq
    have hsp : ' ' ∈ (pkgDeclLine e).data := by
      rw [hEq]
      decide
    rw [pkgDeclLine_data] at hsp
    rcases List.mem_append.1 hsp with hin | hin
    · exact isNameChar_ne_space (hn2 _ hin) rfl
    · rcases List.mem_cons.1 hin with h1 | hin2
      · exact absurd h1 (by decide)
      · rcases List.mem_cons.1 hin2 with h1 | hin3
        · exact absurd h1 (by decide)
        · exact not_ws_ne_space (hv2 _ hin3).1 rfl
  rw [processLine, hstrip]
  have hcond : ((pkgDeclLine e).data.isEmpty ||
      (pkgDeclLine e).data.head? == some '#') = false := by
    rw [hempty, hhead]
    simpa using isNameChar_ne_hash hc0
  rw [hcond]
  simp only [Bool.false_eq_true, if_false, hlast, if_neg hnotE]

theorem isPkgLine_pkgDecl (e : LockEntry) (he : ValidEntry e) :
    isPkgLine (pkgDeclLine e).data = true := by
  obtain ⟨⟨hn1, hn2⟩, _, _⟩ := he
  obtain ⟨c0, nt, hct⟩ : ∃ c0 nt, e.name.data = c0 :: nt := by
    cases hn : e.name.data with
    | nil => exact absurd hn hn1
    | cons c0 nt => exact ⟨c0, nt, rfl⟩
  have hc0 : isNameChar c0 = true := by
    refine hn2 c0 ?_
    rw [hct]
    exact List.mem_cons_self c0 nt
  rw [isPkgLine, pkgDeclLine_data, hct]
  exact hc0

theorem pkgMatch_pkgDecl (e : LockEntry) (he : ValidEntry e) :
    pkgMatch (pkgDeclLine e).data = some (e.name.data, e.version.data) := by
  obtain ⟨⟨hn1, hn2⟩, ⟨hv1, hv2⟩, _⟩ := he
  have hne : isNameChar '=' = false := by decide
  have htake : (pkgDeclLine e).data.takeWhile isNameChar = e.name.data := by
    rw [pkgDeclLine_data, takeWhile_append_all _ _ hn2]
    rw [List.takeWhile_cons]
    simp [hne]
  have hdrop : (pkgDeclLine e).data.dropWhile isNameChar = '=' :: '=' :: e.version.data := by
    rw [pkgDeclLine_data, dropWhile_append_all _ _ hn2]
    rw [List.dropWhile_cons]
    simp [hne]
  have hnameE : e.name.data.isEmpty = false := by
    cases hn : e.name.data with
    | nil => exact absurd hn hn1
    | cons c0 nt => rfl
  have hver : e.version.data.takeWhile (fun c => !(c = ' ' || c = '\\')) = e.version.data := by
    refine List.takeWhile_eq_self_iff.2 fun c hc => ?_
    have h1 : c ≠ ' ' := not_ws_ne_space (hv2 c hc).1
    have h2 : c ≠ '\\' := (hv2 c hc).2
    simp [h1, h2]
  have hverE : e.version.data.isEmpty = false := by
    cases hv : e.version.data with
    | nil => exact absurd hv hv1
    | cons c0 nt => rfl
  rw [pkgMatch]
  simp only [htake, hdrop, hnameE, hver, hverE, Bool.false_eq_true, if_false]

theorem hashDeclLine_data (h : String) :
    (hashDeclLine h).data = "    --hash=sha256:".data ++ h.data := rfl

theorem processLine_hashDecl (h : String) (hne : h.data ≠ [])
    (hall : ∀ c ∈ h.data, isHexChar c = true) :
    processLine (hashDeclLine h).data = some (hashDeclLine h).data := by
  have hstrip : rstrip (hashDeclLine h).data = (hashDeclLine h).data := by
    rw [hashDeclLine_data]
    exact rstrip_of_all_not_ws _ _ hne fun c hc => isHexChar_not_ws (hall c hc)
  have hhead : (hashDeclLine h).data.head? = some ' ' := rfl
  have hempty : (hashDeclLine h).data.isEmpty = false := rfl
  have hlast : endsBackslash (hashDeclLine h).data = false := by
    obtain ⟨z, hz, hzmem⟩ : ∃ z, h.data.getLast? = some z ∧ z ∈ h.data :=
      ⟨h.data.getLast hne, List.getLast?_eq_getLast _ hne, List.getLast_mem hne⟩
    have hzb : z ≠ '\\' := isHexChar_ne_backslash (hall z hzmem)
    rw [endsBackslash, hashDeclLine_data, getLast?_append_right _ _ hne, hz]
    simpa using hzb
  have hnotE : (hashDeclLine h).data ≠ "-e .".data := by
    intro hEq
    have : (' ' : Char) = '-' := by
      have h1 := congrArg List.head? hEq
      rw [hhead] at h1
      exact Option.some.inj h1
    exact absurd this (by decide)
  rw [processLine, hstrip]
  have hcond : ((hashDeclLine h).data.isEmpty ||
      (hashDeclLine h).data.head? == some '#') = false := by
    rw [hempty, hhead]
    rfl
  rw [hcond]
  simp only [Bool.false_eq_true, if_false, hlast, if_neg hnotE]

theorem isPkgLine_hashDecl (h : String) : isPkgLine (hashDeclLine h).data = false := rfl

theorem containsSub_hashDecl (h : String) :
    containsSub "--hash=".data (hashDeclLine h).data = true := by
  rw [show (hashDeclLine h).data =
    ' ' :: (' ' :: (' ' :: (' ' :: ("--hash=".data ++ ("sha256:".data ++ h.data))))) from rfl]
  refine containsSub_cons _ _ _ ?_
  refine containsSub_cons _ _ _ ?_
  refine containsSub_cons _ _ _ ?_
  refine containsSub_cons _ _ _ ?_
  exact containsSub_self_append _ _ (by decide)

theorem hashSearch_cons_skip (c : Char) (rest : List Char)
    (hp : hashPrefix.isPrefixOf (c :: rest) = false) :
    hashSearch (c :: rest) = hashSearch rest := by
  simp [hashSearch, hp]

theorem hashSearch_hashDecl (h : String) (hne : h.data ≠ [])
    (hall : ∀ c ∈ h.data, isHexChar c = true) :
    hashSearch (hashDeclLine h).data = some h.data := by
  rw [show (hashDeclLine h).data =
    ' ' :: (' ' :: (' ' :: (' ' :: (hashPrefix ++ h.data)))) from rfl]
  rw [hashSearch_cons_skip ' ' (' ' :: (' ' :: (' ' :: (hashPrefix ++ h.data)))) rfl,
    hashSearch_cons_skip ' ' (' ' :: (' ' :: (hashPrefix ++ h.data))) rfl,
    hashSearch_cons_skip ' ' (' ' :: (hashPrefix ++ h.data)) rfl,
    hashSearch_cons_skip ' ' (hashPrefix ++ h.data) rfl]
  rw [show (hashPrefix ++ h.data : List Char) =
    '-' :: ("-hash=sha256:".data ++ h.data) from rfl]
  have hpre : hashPrefix.isPrefixOf ('-' :: ("-hash=sha256:".data ++ h.data)) = true :=
    isPrefixOf_append_self hashPrefix h.data
  have hdrop : (('-' :: ("-hash=sha256:".data ++ h.data)).drop hashPrefix.length) = h.data := by
    rw [show ('-' :: ("-hash=sha256:".data ++ h.data) : List Char) =
      hashPrefix ++ h.data from rfl]
    exact List.drop_left hashPrefix h.data
  have htake : h.data.takeWhile isHexChar = h.data := List.takeWhile_eq_self_iff.2 hall
  have hemp : h.data.isEmpty = false := by
    cases hd : h.data with
    | nil => exact absurd hd hne
    | cons c t => rfl
  rw [hashSearch]
  simp only [hpre, if_true, hdrop, htake, hemp, Bool.false_eq_true, if_false]

/-! ### Step and fold lemmas -/

theorem parseStep_pkgDecl (e : LockEntry) (he : ValidEntry e) (st : ParseState) :
    parseStep st (pkgDeclLine e).data = ⟨flushP st, some e.name, flushH st⟩ := by
  rw [parseStep, processLine_pkgDecl e he]
  simp only [isPkgLine_pkgDecl e he, if_true, pkgMatch_pkgDecl e he]
  rfl

theorem parseStep_hashDecl (h : String) (hne : h.data ≠ [])
    (hall : ∀ c ∈ h.data, isHexChar c = true) (st : ParseState) :
    parseStep st (hashDeclLine h).data = ⟨st.packages, st.current, st.hashes ++ [h]⟩ := by
  rw [parseStep, processLine_hashDecl h hne hall]
  simp only [isPkgLine_hashDecl h, Bool.false_eq_true, if_false,
    containsSub_hashDecl h, if_true, hashSearch_hashDecl h hne hall]

theorem foldl_hashDecls (hs : List String) (hall : ∀ h ∈ hs, ValidHash h) (st : ParseState) :
    List.foldl parseStep st (hs.map fun h => (hashDeclLine h).data) =
      ⟨st.packages, st.current, st.hashes ++ hs⟩ := by
  induction hs generalizing st with
  | nil =>
    cases st
    simp
  | cons h t ih =>
    have hv := hall h (List.mem_cons_self h t)
    rw [List.map_cons, List.foldl_cons, parseStep_hashDecl h hv.1 hv.2 st]
    rw [ih fun x hx => hall x (List.mem_cons_of_mem h hx)]
    simp

theorem foldl_entry (e : LockEntry) (he : ValidEntry e) (st : ParseState) :
    List.foldl parseStep st ((entryLines e).map String.data) =
      ⟨flushP st, some e.name, flushH st ++ e.hashes⟩ := by
  rw [entryLines, List.map_cons, List.foldl_cons, parseStep_pkgDecl e he st]
  rw [List.map_map]
  rw [show (String.data ∘ hashDeclLine) = fun h => (hashDeclLine h).data from rfl]
  rw [foldl_hashDecls e.hashes he.2.2 ⟨flushP st, some e.name, flushH st⟩]

theorem lockfile_cons_data (e : LockEntry) (t : List LockEntry) :
    (lockfile (e :: t)).map String.data =
      (entryLines e).map String.data ++ (lockfile t).map String.data := by
  simp [lockfile]

theorem foldl_entries (es : List LockEntry) (hall : ∀ e ∈ es, ValidEntry e)
    (pkgs : List (String × List String)) (p : String) (hs : List String) :
    parseFinish (List.foldl parseStep ⟨pkgs, some p, hs⟩ ((lockfile es).map String.data)) =
      List.foldl (fun d e => dictInsert e.name e.hashes d) (dictInsert p hs pkgs) es := by
  induction es generalizing pkgs p hs with
  | nil =>
    rfl
  | cons e t ih =>
    rw [lockfile_cons_data, List.foldl_append,
      foldl_entry e (hall e (List.mem_cons_self e t)) ⟨pkgs, some p, hs⟩]
    rw [show flushP ⟨pkgs, some p, hs⟩ = dictInsert p hs pkgs from rfl,
      show flushH ⟨pkgs, some p, hs⟩ = [] from rfl]
    rw [List.nil_append]
    rw [ih (fun x hx => hall x (List.mem_cons_of_mem e hx)) (dictInsert p hs pkgs) e.name e.hashes]
    rfl

theorem dictInsert_fresh (k : String) (v : List String)
    (d : List (String × List String)) (h : k ∉ d.map Prod.fst) :
    dictInsert k v d = d ++ [(k, v)] := by
  induction d with
  | nil => rfl
  | cons x t ih =>
    have h1 : x.1 ≠ k := by
      intro he
      exact h (by rw [List.map_cons, he]; exact List.mem_cons_self k _)
    have h2 : k ∉ t.map Prod.fst := fun hm => h (by
      rw [List.map_cons]
      exact List.mem_cons_of_mem _ hm)
    obtain ⟨x1, x2⟩ := x
    rw [dictInsert, if_neg h1, ih h2]
    rfl

theorem foldl_dictInsert_fresh (es : List LockEntry) (d : List (String × List String))
    (hdisj : ∀ e ∈ es, e.name ∉ d.map Prod.fst)
    (hnd : (es.map LockEntry.name).Nodup) :
    List.foldl (fun d e => dictInsert e.name e.hashes d) d es =
      d ++ es.map fun e => (e.name, e.hashes) := by
  induction es generalizing d with
  | nil => simp
  | cons e t ih =>
    rw [List.foldl_cons, dictInsert_fresh e.name e.hashes d (hdisj e (List.mem_cons_self e t))]
    rw [List.map_cons] at hnd
    have hnd' := List.nodup_cons.1 hnd
    have hdisj' : ∀ x ∈ t, x.name ∉ (d ++ [(e.name, e.hashes)]).map Prod.fst := by
      intro x hx hmem
      rw [List.map_append, List.mem_append] at hmem
      rcases hmem with hm | hm
      · exact hdisj x (List.mem_cons_of_mem e hx) hm
      · have : x.name = e.name := by simpa using hm
        exact hnd'.1 (this ▸ List.mem_map_of_mem LockEntry.name hx)
    rw [ih (d ++ [(e.name, e.hashes)]) hdisj' hnd'.2]
    simp

/-- Parsing a well-formed lockfile (hash lines indented and free of trailing
continuation markers) yields exactly one entry per declaration, carrying the
hash lines that follow it, in order. -/
theorem parse_lockfile_wellformed (es : List LockEntry) (hall : ∀ e ∈ es, ValidEntry e)
    (hnd : (es.map LockEntry.name).Nodup) :
    parse_requirements (lockfile es) = es.map fun e => (e.name, e.hashes) := by
  cases es with
  | nil => rfl
  | cons e t =>
    rw [List.map_cons] at hnd
    have hnd' := List.nodup_cons.1 hnd
    have hdisj : ∀ x ∈ t, x.name ∉ ([(e.name, e.hashes)].map Prod.fst) := by
      intro x hx hm
      have hxe : x.name = e.name := by simpa using hm
      exact hnd'.1 (hxe ▸ List.mem_map_of_mem LockEntry.name hx)
    rw [parse_requirements, parseLines]
    rw [lockfile_cons_data, List.foldl_append,
      foldl_entry e (hall e (List.mem_cons_self e t)) ⟨[], none, []⟩]
    rw [show (⟨flushP ⟨[], none, []⟩, some e.name, flushH ⟨[], none, []⟩ ++ e.hashes⟩ :
      ParseState) = ⟨[], some e.name, e.hashes⟩ from rfl]
    rw [foldl_entries t (fun x hx => hall x (List.mem_cons_of_mem e hx)) [] e.name e.hashes]
    rw [show dictInsert e.name e.hashes [] = [(e.name, e.hashes)] from rfl]
    rw [foldl_dictInsert_fresh t [(e.name, e.hashes)] hdisj hnd'.2]
    simp

/-- C1 amended: hash lines appearing before any package declaration are not
dropped; they stay in the accumulator (which is only reset when a previous
package is flushed) and are prepended to the first declared package's tuple. -/
theorem parse_leading_hashes_attach_to_first (pre : List String)
    (hpre : ∀ h ∈ pre, ValidHash h) (e : LockEntry) (es : List LockEntry)
    (hall : ∀ x ∈ e :: es, ValidEntry x) (hnd : ((e :: es).map LockEntry.name).Nodup) :
    parse_requirements (pre.map hashDeclLine ++ lockfile (e :: es)) =
      (e.name, pre ++ e.hashes) :: es.map fun x => (x.name, x.hashes) := by
  rw [List.map_cons] at hnd
  have hnd' := List.nodup_cons.1 hnd
  have hdisj : ∀ x ∈ es, x.name ∉ ([(e.name, pre ++ e.hashes)].map Prod.fst) := by
    intro x hx hm
    have hxe : x.name = e.name := by simpa using hm
    exact hnd'.1 (hxe ▸ List.mem_map_of_mem LockEntry.name hx)
  rw [parse_requirements, parseLines, List.map_append, List.foldl_append]
  rw [List.map_map]
  rw [show (String.data ∘ hashDeclLine) = fun h => (hashDeclLine h).data from rfl]
  rw [foldl_hashDecls pre hpre ⟨[], none, []⟩]
  rw [lockfile_cons_data, List.foldl_append,
    foldl_entry e (hall e (List.mem_cons_self e es)) ⟨[], none, [] ++ pre⟩]
  rw [show (⟨flushP ⟨[], none, [] ++ pre⟩, some e.name, flushH ⟨[], none, [] ++ pre⟩ ++ e.hashes⟩ :
    ParseState) = ⟨[], some e.name, pre ++ e.hashes⟩ from rfl]
  rw [foldl_entries es (fun x hx => hall x (List.mem_cons_of_mem e hx)) [] e.name (pre ++ e.hashes)]
  rw [show dictInsert e.name (pre ++ e.hashes) [] = [(e.name, pre ++ e.hashes)] from rfl]
  rw [foldl_dictInsert_fresh es [(e.name, pre ++ e.hashes)] hdisj hnd'.2]
  simp

/-- Witness for `parse_leading_hashes_attach_to_first`: the digest `aa`
declared before `flask==1.0` ends up at the front of flask's tuple. -/
theorem parse_leading_hashes_attach_to_first_witness :
    parse_requirements
        (["aa"].map hashDeclLine ++ lockfile [⟨"flask", "1.0", ["bb"]⟩]) =
      [("flask", ["aa", "bb"])] := by
  have h := parse_leading_hashes_attach_to_first ["aa"] (by decide)
    ⟨"flask", "1.0", ["bb"]⟩ [] (by decide) (by decide)
  simpa using h

/-- C2 amended: a malformed package-start line (full pattern fails) leaves
`current_package` unchanged, but it still flushes the accumulated hashes into
the mapping under the current package and clears the accumulator, so hashes
after it overwrite that package's tuple at the next flush. -/
theorem malformed_line_flushes_current (st : ParseState) (p : String) (l : List Char)
    (hc : st.current = some p) (hproc : processLine l = some l)
    (hpkg : isPkgLine l = true) (hmatch : pkgMatch l = none) :
    parseStep st l = ⟨dictInsert p st.hashes st.packages, some p, []⟩ := by
  rw [parseStep, hproc]
  simp only [hpkg, if_true, hmatch, hc]

/-- Witness for `malformed_line_flushes_current` on the malformed line `zzz!`
with `flask` current and one accumulated hash. -/
theorem malformed_line_flushes_current_witness :
    processLine "zzz!".data = some "zzz!".data ∧
    isPkgLine "zzz!".data = true ∧
    pkgMatch "zzz!".data = none ∧
    parseStep ⟨[], some "flask", ["aa"]⟩ "zzz!".data =
      ⟨dictInsert "flask" ["aa"] [], some "flask", []⟩ :=
  ⟨by decide, by decide, by decide,
   malformed_line_flushes_current ⟨[], some "flask", ["aa"]⟩ "flask" "zzz!".data
     rfl (by decide) (by decide) (by decide)⟩
